import Mathlib

/-!
Verification of the MJPEG capture/classify pipeline (`index.js`).

The development shallowly embeds the pipeline's components:

* `MJPEG` — the frame demuxer `createMJPEGFrameParser` (byte window,
  SOI/EOI marker search, bounded truncation of marker-less noise);
* `Pipe` — the orchestrator fan-out (preview forwarder and the
  busy-flag inference gate) as a trace-level state machine;
* `Classify` — the classifier adapter (RGBA→RGB repack, 0–255 → 0–1
  normalization, batching, softmax) plus the caller-side reporting
  policy (`topK`, 500 ms throttle).

Bytes are modelled as `Nat`, buffers as `List Nat`.
-/

namespace MJPEG

/-- Marker bytes: SOI = 0xFF 0xD8, EOI = 0xFF 0xD9. -/
def ffByte : Nat := 0xff
def soiByte : Nat := 0xd8
def eoiByte : Nat := 0xd9

/-- Model of `Buffer.indexOf(Buffer.from([a, b]))`: index of the first occurrence of
the two-byte sequence `a b` in `l`, if any. -/
def indexOfPair (a b : Nat) : List Nat → Option Nat
  | x :: y :: rest =>
      if x = a ∧ y = b then some 0
      else (indexOfPair a b (y :: rest)).map (· + 1)
  | _ => none

/-- The two-byte sequence `a b` occurs in `l` at position `i`. -/
def pairAt (a b : Nat) (l : List Nat) (i : Nat) : Prop :=
  l[i]? = some a ∧ l[i + 1]? = some b

theorem pairAt_lt {a b : Nat} {l : List Nat} {i : Nat} (h : pairAt a b l i) :
    i + 1 < l.length := by
  obtain ⟨-, h2⟩ := h
  exact (List.getElem?_eq_some_iff.mp h2).1

theorem indexOfPair_nil {a b : Nat} : indexOfPair a b [] = none := rfl

theorem indexOfPair_single {a b x : Nat} : indexOfPair a b [x] = none := rfl

theorem indexOfPair_cons₂ {a b x y : Nat} {rest : List Nat} :
    indexOfPair a b (x :: y :: rest) =
      if x = a ∧ y = b then some 0
      else (indexOfPair a b (y :: rest)).map (· + 1) := rfl

theorem pairAt_cons_succ {a b x : Nat} {l : List Nat} {i : Nat} :
    pairAt a b (x :: l) (i + 1) ↔ pairAt a b l i := by
  simp [pairAt]

theorem pairAt_zero_cons₂ {a b x y : Nat} {rest : List Nat} :
    pairAt a b (x :: y :: rest) 0 ↔ x = a ∧ y = b := by
  simp [pairAt, eq_comm]

/-- Soundness: a found index carries the two-byte pattern. -/
theorem indexOfPair_pairAt {a b : Nat} :
    ∀ {l : List Nat} {i : Nat}, indexOfPair a b l = some i → pairAt a b l i := by
  intro l
  induction l with
  | nil => intro i h; simp [indexOfPair] at h
  | cons x xs ih =>
    intro i h
    cases xs with
    | nil => simp [indexOfPair] at h
    | cons y rest =>
      rw [indexOfPair_cons₂] at h
      by_cases hxy : x = a ∧ y = b
      · rw [if_pos hxy] at h
        obtain rfl : (0 : Nat) = i := by simpa using h
        exact pairAt_zero_cons₂.mpr hxy
      · rw [if_neg hxy] at h
        obtain ⟨i', hi', rfl⟩ := Option.map_eq_some'.mp h
        exact pairAt_cons_succ.mpr (ih hi')

/-- Minimality: no occurrence strictly before the found index. -/
theorem indexOfPair_min {a b : Nat} :
    ∀ {l : List Nat} {i : Nat}, indexOfPair a b l = some i →
      ∀ j, j < i → ¬ pairAt a b l j := by
  intro l
  induction l with
  | nil => intro i h; simp [indexOfPair] at h
  | cons x xs ih =>
    intro i h j hj hp
    cases xs with
    | nil => simp [indexOfPair] at h
    | cons y rest =>
      rw [indexOfPair_cons₂] at h
      by_cases hxy : x = a ∧ y = b
      · rw [if_pos hxy] at h
        obtain rfl : (0 : Nat) = i := by simpa using h
        omega
      · rw [if_neg hxy] at h
        obtain ⟨i', hi', rfl⟩ := Option.map_eq_some'.mp h
        cases j with
        | zero => exact hxy (pairAt_zero_cons₂.mp hp)
        | succ j' => exact ih hi' j' (by omega) (pairAt_cons_succ.mp hp)

/-- Completeness: `none` means the pattern occurs nowhere. -/
theorem indexOfPair_none {a b : Nat} :
    ∀ {l : List Nat}, indexOfPair a b l = none → ∀ j, ¬ pairAt a b l j := by
  intro l
  induction l with
  | nil =>
    intro _ j hp
    have := pairAt_lt hp
    simp at this
  | cons x xs ih =>
    intro h j hp
    cases xs with
    | nil =>
      have := pairAt_lt hp
      simp at this
    | cons y rest =>
      rw [indexOfPair_cons₂] at h
      by_cases hxy : x = a ∧ y = b
      · rw [if_pos hxy] at h; exact Option.noConfusion h
      · rw [if_neg hxy] at h
        have h' : indexOfPair a b (y :: rest) = none := Option.map_eq_none'.mp h
        cases j with
        | zero => exact hxy (pairAt_zero_cons₂.mp hp)
        | succ j' => exact ih h' j' (pairAt_cons_succ.mp hp)

/-- Converse characterization: an occurrence with nothing before it is the
first occurrence. -/
theorem indexOfPair_eq_some {a b : Nat} {l : List Nat} {i : Nat}
    (hp : pairAt a b l i) (hmin : ∀ j, j < i → ¬ pairAt a b l j) :
    indexOfPair a b l = some i := by
  cases h : indexOfPair a b l with
  | none => exact absurd hp (indexOfPair_none h i)
  | some i' =>
    rcases Nat.lt_trichotomy i' i with hlt | heq | hgt
    · exact absurd (indexOfPair_pairAt h) (hmin i' hlt)
    · rw [heq]
    · exact absurd hp (indexOfPair_min h i hgt)

theorem indexOfPair_eq_none {a b : Nat} {l : List Nat}
    (h : ∀ j, ¬ pairAt a b l j) : indexOfPair a b l = none := by
  cases hc : indexOfPair a b l with
  | none => rfl
  | some i => exact absurd (indexOfPair_pairAt hc) (h i)

/-- Occurrences transfer along `drop`. -/
theorem pairAt_drop {a b : Nat} {l : List Nat} {k i : Nat} :
    pairAt a b (l.drop k) i ↔ pairAt a b l (k + i) := by
  unfold pairAt
  rw [List.getElem?_drop, List.getElem?_drop]
  constructor
  · rintro ⟨h1, h2⟩
    exact ⟨h1, by rw [show k + i + 1 = k + (i + 1) by omega]; exact h2⟩
  · rintro ⟨h1, h2⟩
    exact ⟨h1, by rw [show k + (i + 1) = k + i + 1 by omega]; exact h2⟩

/-- Occurrences inside the left part of an append persist. -/
theorem pairAt_append_left {a b : Nat} {l m : List Nat} {i : Nat}
    (h : pairAt a b l i) : pairAt a b (l ++ m) i := by
  have hlt := pairAt_lt h
  obtain ⟨h1, h2⟩ := h
  refine ⟨?_, ?_⟩
  · rw [List.getElem?_append, if_pos (by omega)]; exact h1
  · rw [List.getElem?_append, if_pos hlt]; exact h2

/-- An occurrence in an append that lies fully inside the left part is an
occurrence in the left part. -/
theorem pairAt_append_of_lt {a b : Nat} {l m : List Nat} {i : Nat}
    (h : pairAt a b (l ++ m) i) (hi : i + 1 < l.length) : pairAt a b l i := by
  obtain ⟨h1, h2⟩ := h
  rw [List.getElem?_append, if_pos (by omega)] at h1
  rw [List.getElem?_append, if_pos hi] at h2
  exact ⟨h1, h2⟩

/-- Appending on the right does not change a found first index. -/
theorem indexOfPair_append {a b : Nat} {l m : List Nat} {i : Nat}
    (h : indexOfPair a b l = some i) : indexOfPair a b (l ++ m) = some i := by
  have hp := indexOfPair_pairAt h
  have hlt := pairAt_lt hp
  refine indexOfPair_eq_some (pairAt_append_left hp) ?_
  intro j hj hpj
  exact indexOfPair_min h j hj (pairAt_append_of_lt hpj (by omega))

/-- Truncation threshold `1024 * 1024` from
`if (buf.length > 1024 * 1024) buf = buf.subarray(buf.length - 1024)`. -/
def truncLimit : Nat := 1024 * 1024

/-- Size of the tail kept by the safety truncation. -/
def tailKeep : Nat := 1024

/-- Model of `if (buf.length > 1024 * 1024) buf = buf.subarray(buf.length - 1024)`:
the safety truncation applied when the window holds no SOI. -/
def truncate (buf : List Nat) : List Nat :=
  if truncLimit < buf.length then buf.drop (buf.length - tailKeep) else buf

theorem truncLimit_eq : truncLimit = 1048576 := by norm_num [truncLimit]

theorem tailKeep_eq : tailKeep = 1024 := rfl

theorem truncate_big {buf : List Nat} (h : truncLimit < buf.length) :
    truncate buf = buf.drop (buf.length - tailKeep) := if_pos h

theorem truncate_small {buf : List Nat} (h : ¬ truncLimit < buf.length) :
    truncate buf = buf := if_neg h

/-- The `while (true)` loop of `createMJPEGFrameParser`, run to completion on
the current byte window `buf`.  Returns the residual window together with the
emitted frames, in emission order:

* no SOI: keep a small tail if the window exceeds `truncLimit`, emit nothing;
* SOI but no EOI at or after `soi + 2`: wait for more data, emit nothing;
* SOI and EOI: emit `buf.subarray(soi, eoi + 2)`, continue on
  `buf.subarray(eoi + 2)`. -/
def processBuf (buf : List Nat) : List Nat × List (List Nat) :=
  match hs : indexOfPair ffByte soiByte buf with
  | none => (truncate buf, [])
  | some soi =>
    match indexOfPair ffByte eoiByte (buf.drop (soi + 2)) with
    | none => (buf, [])
    | some e =>
      let out := processBuf (buf.drop (soi + e + 4))
      (out.1, ((buf.drop soi).take (e + 4)) :: out.2)
termination_by buf.length
decreasing_by
  have hlt := pairAt_lt (indexOfPair_pairAt hs)
  simp only [List.length_drop]
  omega

/-- One call of the chunk callback: append the chunk to the window, then run
the marker-extraction loop. -/
def feed (s chunk : List Nat) : List Nat × List (List Nat) :=
  processBuf (s ++ chunk)

/-- Feed a sequence of chunks one at a time, collecting all emitted frames in
order. -/
def feedAll (s : List Nat) : List (List Nat) → List Nat × List (List Nat)
  | [] => (s, [])
  | c :: cs =>
      let o1 := feed s c
      let o2 := feedAll o1.1 cs
      (o2.1, o1.2 ++ o2.2)

theorem processBuf_noSoi {buf : List Nat}
    (h : indexOfPair ffByte soiByte buf = none) :
    processBuf buf = (truncate buf, []) := by
  unfold processBuf
  split
  · rfl
  · rename_i soi hs
    rw [h] at hs
    exact Option.noConfusion hs

theorem processBuf_noEoi {buf : List Nat} {soi : Nat}
    (h : indexOfPair ffByte soiByte buf = some soi)
    (he : indexOfPair ffByte eoiByte (buf.drop (soi + 2)) = none) :
    processBuf buf = (buf, []) := by
  unfold processBuf
  split
  · rename_i hs
    rw [h] at hs
    exact Option.noConfusion hs
  · rename_i soi' hs
    rw [h] at hs
    obtain rfl : soi = soi' := Option.some.inj hs
    rw [he]

theorem processBuf_emit {buf : List Nat} {soi e : Nat}
    (h : indexOfPair ffByte soiByte buf = some soi)
    (he : indexOfPair ffByte eoiByte (buf.drop (soi + 2)) = some e) :
    processBuf buf =
      ((processBuf (buf.drop (soi + e + 4))).1,
       ((buf.drop soi).take (e + 4)) :: (processBuf (buf.drop (soi + e + 4))).2) := by
  conv_lhs => unfold processBuf
  split
  · rename_i hs
    rw [h] at hs
    exact Option.noConfusion hs
  · rename_i soi' hs
    rw [h] at hs
    obtain rfl : soi = soi' := Option.some.inj hs
    rw [he]

/-- Relation `Rel b b'` holds when `b'` is a tail of `b` obtained by discarding a
(possibly empty) prefix that contains no SOI occurrence, and that does not
discard the whole of a nonempty window.  This is exactly the effect of the
safety truncation on a marker-less window. -/
def Rel (b b' : List Nat) : Prop :=
  ∃ k, b' = b.drop k ∧ (k ≠ 0 → k < b.length) ∧
    ∀ j, j < k → ¬ pairAt ffByte soiByte b j

/-- Symmetric closure of `Rel`. -/
def RelSym (b b' : List Nat) : Prop := Rel b b' ∨ Rel b' b

theorem Rel.refl (b : List Nat) : Rel b b :=
  ⟨0, (List.drop_zero b).symm, fun h => absurd rfl h, fun j hj => absurd hj (Nat.not_lt_zero j)⟩

theorem RelSym.symm {b b' : List Nat} (h : RelSym b b') : RelSym b' b :=
  h.elim Or.inr Or.inl

/-- First-occurrence transfer across a discarded occurrence-free prefix
(`some` case). -/
theorem first_through_drop_some {a b : Nat} {X Y : List Nat} {k s : Nat}
    (hnp : ∀ j, j < k → ¬ pairAt a b X j) (hXY : X.drop k = Y)
    (hY : indexOfPair a b Y = some s) : indexOfPair a b X = some (k + s) := by
  have hp : pairAt a b (X.drop k) s := by rw [hXY]; exact indexOfPair_pairAt hY
  refine indexOfPair_eq_some (pairAt_drop.mp hp) ?_
  intro j hj hpj
  rcases Nat.lt_or_ge j k with hlt | hge
  · exact hnp j hlt hpj
  · have hj' : k + (j - k) = j := by omega
    have hYj : pairAt a b Y (j - k) := by
      rw [← hXY]
      exact pairAt_drop.mpr (by rw [hj']; exact hpj)
    exact indexOfPair_min hY (j - k) (by omega) hYj

/-- First-occurrence transfer across a discarded occurrence-free prefix
(`none` case). -/
theorem first_through_drop_none {a b : Nat} {X Y : List Nat} {k : Nat}
    (hnp : ∀ j, j < k → ¬ pairAt a b X j) (hXY : X.drop k = Y)
    (hY : indexOfPair a b Y = none) : indexOfPair a b X = none := by
  refine indexOfPair_eq_none ?_
  intro j hpj
  rcases Nat.lt_or_ge j k with hlt | hge
  · exact hnp j hlt hpj
  · have hj' : k + (j - k) = j := by omega
    have hYj : pairAt a b Y (j - k) := by
      rw [← hXY]
      exact pairAt_drop.mpr (by rw [hj']; exact hpj)
    exact indexOfPair_none hY (j - k) hYj

/-- If a window contains no SOI at all, truncating it and truncating any of
its SOI-prefix-free tails leaves `RelSym`-related windows. -/
theorem truncate_relSym (X : List Nat) (k : Nat) (hk : k < X.length)
    (hnone : indexOfPair ffByte soiByte X = none) :
    RelSym (truncate X) (truncate (X.drop k)) := by
  have hlen : (X.drop k).length = X.length - k := List.length_drop k X
  have ht : tailKeep = 1024 := tailKeep_eq
  have hT : truncLimit = 1048576 := truncLimit_eq
  have hnp : ∀ i j, ¬ pairAt ffByte soiByte (X.drop i) j := by
    intro i j hpj
    exact indexOfPair_none hnone (i + j) (pairAt_drop.mp hpj)
  by_cases hbig : truncLimit < X.length
  · by_cases hbigY : truncLimit < (X.drop k).length
    · -- both windows truncate, to the same 1024-byte tail
      left
      rw [truncate_big hbig, truncate_big hbigY]
      have harith : k + ((X.drop k).length - tailKeep) = X.length - tailKeep := by
        omega
      rw [List.drop_drop, harith]
      exact Rel.refl _
    · rw [truncate_big hbig, truncate_small hbigY]
      rcases le_or_lt tailKeep (X.drop k).length with hYt | hYt
      · -- the long window keeps its last 1024 bytes, which is also the last
        -- 1024 bytes of the shorter (untouched) window
        right
        refine ⟨(X.drop k).length - tailKeep, ?_, ?_, ?_⟩
        · have harith : k + ((X.drop k).length - tailKeep) = X.length - tailKeep := by
            omega
          rw [List.drop_drop, harith]
        · intro _
          omega
        · intro j _ hpj
          exact hnp k j hpj
      · -- the untouched shorter window is a suffix of the kept tail
        left
        refine ⟨tailKeep - (X.drop k).length, ?_, ?_, ?_⟩
        · have harith : (X.length - tailKeep) + (tailKeep - (X.drop k).length) = k := by
            omega
          rw [List.drop_drop, harith]
        · intro _
          have hkeep : (X.drop (X.length - tailKeep)).length
              = X.length - (X.length - tailKeep) := List.length_drop _ _
          omega
        · intro j _ hpj
          exact hnp (X.length - tailKeep) j hpj
  · -- neither window truncates
    have hsmall : ¬ truncLimit < (X.drop k).length := by
      rw [hlen]; omega
    rw [truncate_small hbig, truncate_small hsmall]
    exact Or.inl ⟨k, rfl, fun _ => hk, fun j _ hpj => indexOfPair_none hnone j hpj⟩

/-- Composition: discarding an SOI-free prefix (as the truncation does) never
changes the frames extracted after any further bytes arrive, and it keeps the
residual windows related. -/
theorem processBuf_rel (b b' c : List Nat) (h : Rel b b') :
    (processBuf (b ++ c)).2 = (processBuf (b' ++ c)).2 ∧
      RelSym (processBuf (b ++ c)).1 (processBuf (b' ++ c)).1 := by
  obtain ⟨k, rfl, hklt, hnp⟩ := h
  by_cases hk0 : k = 0
  · subst hk0
    rw [List.drop_zero]
    exact ⟨rfl, Or.inl (Rel.refl _)⟩
  have hkb : k < b.length := hklt hk0
  have hXY : (b ++ c).drop k = b.drop k ++ c :=
    List.drop_append_of_le_length (by omega)
  have hnpX : ∀ j, j < k → ¬ pairAt ffByte soiByte (b ++ c) j := by
    intro j hj hpj
    exact hnp j hj (pairAt_append_of_lt hpj (by omega))
  have hlX : (b ++ c).length = b.length + c.length := by simp
  cases hY : indexOfPair ffByte soiByte (b.drop k ++ c) with
  | none =>
    have hX : indexOfPair ffByte soiByte (b ++ c) = none :=
      first_through_drop_none hnpX hXY hY
    rw [processBuf_noSoi hX, processBuf_noSoi hY]
    refine ⟨rfl, ?_⟩
    have := truncate_relSym (b ++ c) k (by omega) hX
    rw [hXY] at this
    exact this
  | some s =>
    have hX : indexOfPair ffByte soiByte (b ++ c) = some (k + s) :=
      first_through_drop_some hnpX hXY hY
    have hEq : (b ++ c).drop (k + s + 2) = (b.drop k ++ c).drop (s + 2) := by
      rw [← hXY, List.drop_drop]
      have harith : k + (s + 2) = k + s + 2 := by omega
      rw [harith]
    cases hE : indexOfPair ffByte eoiByte ((b.drop k ++ c).drop (s + 2)) with
    | none =>
      have hEX : indexOfPair ffByte eoiByte ((b ++ c).drop (k + s + 2)) = none := by
        rw [hEq]; exact hE
      rw [processBuf_noEoi hX hEX, processBuf_noEoi hY hE]
      have hkX : k < (b ++ c).length := by rw [hlX]; omega
      exact ⟨rfl, Or.inl ⟨k, hXY.symm, fun _ => hkX, hnpX⟩⟩
    | some e =>
      have hEX : indexOfPair ffByte eoiByte ((b ++ c).drop (k + s + 2)) = some e := by
        rw [hEq]; exact hE
      rw [processBuf_emit hX hEX, processBuf_emit hY hE]
      have hrest : (b ++ c).drop (k + s + e + 4) = (b.drop k ++ c).drop (s + e + 4) := by
        rw [← hXY, List.drop_drop]
        have harith : k + (s + e + 4) = k + s + e + 4 := by omega
        rw [harith]
      have hfr : (b ++ c).drop (k + s) = (b.drop k ++ c).drop s := by
        rw [← hXY, List.drop_drop]
      rw [hrest, hfr]
      exact ⟨rfl, Or.inl (Rel.refl _)⟩

theorem soi_bound {buf : List Nat} {soi : Nat}
    (h : indexOfPair ffByte soiByte buf = some soi) : soi + 1 < buf.length :=
  pairAt_lt (indexOfPair_pairAt h)

theorem eoi_bound {buf : List Nat} {soi e : Nat}
    (h : indexOfPair ffByte eoiByte (buf.drop (soi + 2)) = some e) :
    soi + e + 4 ≤ buf.length := by
  have := pairAt_lt (indexOfPair_pairAt h)
  rw [List.length_drop] at this
  omega

theorem processBuf_nil : processBuf ([] : List Nat) = ([], []) := by
  rw [processBuf_noSoi indexOfPair_nil, truncate_small (by simp [truncLimit_eq])]

/-- Splitting a feed: processing `b ++ c` at once yields the frames of
processing `b` followed by the frames of processing the residual plus `c`,
with `RelSym`-related residuals. -/
theorem processBuf_append_aux :
    ∀ n b c, b.length ≤ n →
      (processBuf (b ++ c)).2 =
          (processBuf b).2 ++ (processBuf ((processBuf b).1 ++ c)).2 ∧
        RelSym (processBuf (b ++ c)).1 (processBuf ((processBuf b).1 ++ c)).1 := by
  intro n
  induction n with
  | zero =>
    intro b c hb
    obtain rfl : b = [] := List.length_eq_zero.mp (Nat.le_zero.mp hb)
    rw [processBuf_nil]
    exact ⟨(List.nil_append _).symm, Or.inl (Rel.refl _)⟩
  | succ n ih =>
    intro b c hb
    cases hS : indexOfPair ffByte soiByte b with
    | none =>
      rw [processBuf_noSoi hS]
      have ht : tailKeep = 1024 := tailKeep_eq
      have hT : truncLimit = 1048576 := truncLimit_eq
      have hrel : Rel b (truncate b) := by
        by_cases hbig : truncLimit < b.length
        · rw [truncate_big hbig]
          exact ⟨b.length - tailKeep, rfl, fun _ => by omega,
            fun j _ hpj => indexOfPair_none hS j hpj⟩
        · rw [truncate_small hbig]
          exact Rel.refl b
      have hc := processBuf_rel b (truncate b) c hrel
      exact ⟨by rw [List.nil_append]; exact hc.1, hc.2⟩
    | some soi =>
      cases hE : indexOfPair ffByte eoiByte (b.drop (soi + 2)) with
      | none =>
        rw [processBuf_noEoi hS hE]
        exact ⟨(List.nil_append _).symm, Or.inl (Rel.refl _)⟩
      | some e =>
        have hsb := soi_bound hS
        have heb := eoi_bound hE
        have hSX : indexOfPair ffByte soiByte (b ++ c) = some soi :=
          indexOfPair_append hS
        have hdropA : (b ++ c).drop (soi + 2) = b.drop (soi + 2) ++ c :=
          List.drop_append_of_le_length (by omega)
        have hEX : indexOfPair ffByte eoiByte ((b ++ c).drop (soi + 2)) = some e := by
          rw [hdropA]
          exact indexOfPair_append hE
        rw [processBuf_emit hSX hEX, processBuf_emit hS hE]
        have hfr : ((b ++ c).drop soi).take (e + 4) = (b.drop soi).take (e + 4) := by
          rw [List.drop_append_of_le_length (by omega),
            List.take_append_of_le_length (by rw [List.length_drop]; omega)]
        have hrest : (b ++ c).drop (soi + e + 4) = b.drop (soi + e + 4) ++ c :=
          List.drop_append_of_le_length (by omega)
        rw [hfr, hrest]
        have hih := ih (b.drop (soi + e + 4)) c (by rw [List.length_drop]; omega)
        refine ⟨?_, hih.2⟩
        rw [hih.1]
        rfl

theorem processBuf_append (b c : List Nat) :
    (processBuf (b ++ c)).2 =
        (processBuf b).2 ++ (processBuf ((processBuf b).1 ++ c)).2 ∧
      RelSym (processBuf (b ++ c)).1 (processBuf ((processBuf b).1 ++ c)).1 :=
  processBuf_append_aux b.length b c le_rfl

/-- The residual window left by the loop is quiescent: running the loop on it
again extracts nothing and leaves it unchanged. -/
theorem processBuf_residual_aux :
    ∀ n b, b.length ≤ n →
      processBuf ((processBuf b).1) = ((processBuf b).1, []) := by
  intro n
  induction n with
  | zero =>
    intro b hb
    obtain rfl : b = [] := List.length_eq_zero.mp (Nat.le_zero.mp hb)
    rw [processBuf_nil]
    exact processBuf_nil
  | succ n ih =>
    intro b hb
    have ht : tailKeep = 1024 := tailKeep_eq
    have hT : truncLimit = 1048576 := truncLimit_eq
    cases hS : indexOfPair ffByte soiByte b with
    | none =>
      rw [processBuf_noSoi hS]
      have hnone : indexOfPair ffByte soiByte (truncate b) = none := by
        by_cases hbig : truncLimit < b.length
        · rw [truncate_big hbig]
          exact indexOfPair_eq_none fun j hpj =>
            indexOfPair_none hS _ (pairAt_drop.mp hpj)
        · rw [truncate_small hbig]
          exact hS
      rw [processBuf_noSoi hnone]
      have hsmall : ¬ truncLimit < (truncate b).length := by
        by_cases hbig : truncLimit < b.length
        · rw [truncate_big hbig, List.length_drop]
          omega
        · rw [truncate_small hbig]
          exact hbig
      rw [truncate_small hsmall]
    | some soi =>
      cases hE : indexOfPair ffByte eoiByte (b.drop (soi + 2)) with
      | none =>
        rw [processBuf_noEoi hS hE]
        exact processBuf_noEoi hS hE
      | some e =>
        have hsb := soi_bound hS
        rw [processBuf_emit hS hE]
        exact ih (b.drop (soi + e + 4)) (by rw [List.length_drop]; omega)

theorem processBuf_residual (b : List Nat) :
    processBuf ((processBuf b).1) = ((processBuf b).1, []) :=
  processBuf_residual_aux b.length b le_rfl

/-- Chunked feeding from `RelSym`-related quiescent windows produces exactly
the frames of processing all remaining bytes at once. -/
theorem feedAll_eq_processBuf :
    ∀ (chunks : List (List Nat)) (s t : List Nat),
      RelSym s t → processBuf s = (s, []) → processBuf t = (t, []) →
      (feedAll s chunks).2 = (processBuf (t ++ chunks.flatten)).2 := by
  intro chunks
  induction chunks with
  | nil =>
    intro s t _ _ hqt
    rw [List.flatten_nil, List.append_nil, hqt]
    rfl
  | cons c cs ih =>
    intro s t hst hqs hqt
    have hcomp : (processBuf (s ++ c)).2 = (processBuf (t ++ c)).2 ∧
        RelSym (processBuf (s ++ c)).1 (processBuf (t ++ c)).1 := by
      rcases hst with h | h
      · exact processBuf_rel s t c h
      · have := processBuf_rel t s c h
        exact ⟨this.1.symm, this.2.symm⟩
    have hsplit := processBuf_append (t ++ c) cs.flatten
    have hih := ih (processBuf (s ++ c)).1 (processBuf (t ++ c)).1 hcomp.2
      (processBuf_residual (s ++ c)) (processBuf_residual (t ++ c))
    have hstep : (feedAll s (c :: cs)).2 =
        (processBuf (s ++ c)).2 ++ (feedAll (processBuf (s ++ c)).1 cs).2 := rfl
    rw [hstep, hih, hcomp.1, List.flatten_cons, ← List.append_assoc]
    exact hsplit.1.symm

/-- C2: for every byte sequence and every way of splitting it into chunks,
feeding the Demuxer the chunks one at a time produces exactly the same ordered
sequence of emitted frame buffers as feeding the whole sequence as one single
chunk (chunk-boundary independence). -/
theorem demux_chunk_boundary_independence (chunks : List (List Nat)) :
    (feedAll [] chunks).2 = (feedAll [] [chunks.flatten]).2 := by
  have h1 := feedAll_eq_processBuf chunks [] []
    (Or.inl (Rel.refl _)) processBuf_nil processBuf_nil
  have h2 := feedAll_eq_processBuf [chunks.flatten] [] []
    (Or.inl (Rel.refl _)) processBuf_nil processBuf_nil
  rw [h1, h2]
  simp

/-- A well-formed JPEG frame: SOI marker, a body free of the EOI byte pair,
then the EOI marker. -/
def WellFormedJPEG (f : List Nat) : Prop :=
  ∃ body, f = ffByte :: soiByte :: (body ++ [ffByte, eoiByte]) ∧
    indexOfPair ffByte eoiByte body = none

theorem firstEoi_after_body {body rest : List Nat}
    (hbody : indexOfPair ffByte eoiByte body = none) :
    indexOfPair ffByte eoiByte (body ++ ffByte :: eoiByte :: rest)
      = some body.length := by
  refine indexOfPair_eq_some ⟨?_, ?_⟩ ?_
  · rw [List.getElem?_append, if_neg (by omega)]
    simp
  · rw [List.getElem?_append, if_neg (by omega)]
    simp
  · intro j hj hpj
    obtain ⟨h1, h2⟩ := hpj
    rw [List.getElem?_append, if_pos hj] at h1
    rcases Nat.lt_or_ge (j + 1) body.length with hlt | hge
    · rw [List.getElem?_append, if_pos hlt] at h2
      exact indexOfPair_none hbody j ⟨h1, h2⟩
    · have hj1 : j + 1 = body.length := by omega
      rw [List.getElem?_append, if_neg (by omega), hj1] at h2
      simp at h2
      have : ffByte ≠ eoiByte := by norm_num [ffByte, eoiByte]
      exact this (by rw [h2])

/-- C3: a stream of N well-formed back-to-back JPEG frames demuxes to exactly
those N frames, byte-identical and in order, leaving an empty window. -/
theorem demux_wellformed_stream (frames : List (List Nat))
    (h : ∀ f ∈ frames, WellFormedJPEG f) :
    feed [] frames.flatten = ([], frames) := by
  induction frames with
  | nil => exact processBuf_nil
  | cons f fs ih =>
    obtain ⟨body, hf, hbody⟩ := h f (List.mem_cons_self f fs)
    have hrest := ih fun g hg => h g (List.mem_cons_of_mem f hg)
    show processBuf ((f :: fs).flatten) = ([], f :: fs)
    rw [List.flatten_cons]
    have hflen : f.length = body.length + 4 := by
      rw [hf]
      simp
    have hshape : f ++ fs.flatten
        = ffByte :: soiByte :: (body ++ ffByte :: eoiByte :: fs.flatten) := by
      rw [hf]
      simp
    have hS : indexOfPair ffByte soiByte (f ++ fs.flatten) = some 0 := by
      rw [hshape, indexOfPair_cons₂, if_pos ⟨rfl, rfl⟩]
    have hdrop2 : (f ++ fs.flatten).drop (0 + 2)
        = body ++ ffByte :: eoiByte :: fs.flatten := by
      rw [hshape]
      rfl
    have hE : indexOfPair ffByte eoiByte ((f ++ fs.flatten).drop (0 + 2))
        = some body.length := by
      rw [hdrop2]
      exact firstEoi_after_body hbody
    rw [processBuf_emit hS hE]
    have hdropRest : (f ++ fs.flatten).drop (0 + body.length + 4) = fs.flatten := by
      have : 0 + body.length + 4 = f.length := by omega
      rw [this]
      exact List.drop_left f fs.flatten
    have hframe : ((f ++ fs.flatten).drop 0).take (body.length + 4) = f := by
      rw [List.drop_zero, List.take_append_of_le_length (by omega), ← hflen,
        List.take_length]
    rw [hdropRest, hframe]
    show ((processBuf fs.flatten).1, f :: (processBuf fs.flatten).2) = ([], f :: fs)
    have : processBuf fs.flatten = ([], fs) := hrest
    rw [this]

/-- Length of the marker-less prefix of a window: the bytes before the first
SOI occurrence, or the whole window when it holds no SOI. -/
def markerlessLen (w : List Nat) : Nat :=
  (indexOfPair ffByte soiByte w).getD w.length

theorem indexOfPair_replicate_zero (n : Nat) :
    indexOfPair ffByte soiByte (List.replicate n 0 ++ [ffByte, soiByte])
      = some n := by
  induction n with
  | zero =>
    rw [List.replicate, List.nil_append, indexOfPair_cons₂, if_pos ⟨rfl, rfl⟩]
  | succ n ih =>
    rw [List.replicate_succ, List.cons_append]
    obtain ⟨y, rest, hyr⟩ :
        ∃ y rest, List.replicate n 0 ++ [ffByte, soiByte] = y :: rest := by
      cases n with
      | zero => exact ⟨ffByte, [soiByte], by simp⟩
      | succ m => exact ⟨0, _, by rw [List.replicate_succ, List.cons_append]⟩
    rw [hyr, indexOfPair_cons₂, if_neg (by norm_num [ffByte]), ← hyr, ih]
    rfl

theorem feedAll_single (s c : List Nat) :
    (feedAll s [c]).1 = (processBuf (s ++ c)).1 := rfl

/-- C4 counterexample: a single feed of just-over-a-threshold of marker-less
noise followed by a bare SOI leaves the whole noise run retained as the
window's marker-less prefix — more than one truncation threshold's worth —
because the truncation only runs when the window holds no SOI at all. -/
theorem window_markerless_bound_cex :
    ¬ markerlessLen
        ((feedAll []
          [List.replicate (truncLimit + 1) 0 ++ [ffByte, soiByte]]).1)
      ≤ truncLimit := by
  have hS := indexOfPair_replicate_zero (truncLimit + 1)
  have hlen : (List.replicate (truncLimit + 1) 0 ++ [ffByte, soiByte]).length
      = truncLimit + 3 := by
    rw [List.length_append, List.length_replicate]
    rfl
  have hE : indexOfPair ffByte eoiByte
      ((List.replicate (truncLimit + 1) 0 ++ [ffByte, soiByte]).drop
        (truncLimit + 1 + 2)) = none := by
    rw [List.drop_eq_nil_of_le (by omega)]
    rfl
  have hq := processBuf_noEoi hS hE
  rw [feedAll_single, List.nil_append, hq]
  show ¬ markerlessLen (List.replicate (truncLimit + 1) 0 ++ [ffByte, soiByte])
    ≤ truncLimit
  unfold markerlessLen
  rw [hS, Option.getD_some]
  omega

theorem processBuf_residual_noSoi_bound :
    ∀ n b, b.length ≤ n →
      indexOfPair ffByte soiByte (processBuf b).1 = none →
      ((processBuf b).1).length ≤ truncLimit := by
  intro n
  induction n with
  | zero =>
    intro b hb _
    obtain rfl : b = [] := List.length_eq_zero.mp (Nat.le_zero.mp hb)
    rw [processBuf_nil]
    simp
  | succ n ih =>
    intro b hb hres
    have ht : tailKeep = 1024 := tailKeep_eq
    have hT : truncLimit = 1048576 := truncLimit_eq
    cases hS : indexOfPair ffByte soiByte b with
    | none =>
      rw [processBuf_noSoi hS]
      show (truncate b).length ≤ truncLimit
      by_cases hbig : truncLimit < b.length
      · rw [truncate_big hbig, List.length_drop]
        omega
      · rw [truncate_small hbig]
        omega
    | some soi =>
      cases hE : indexOfPair ffByte eoiByte (b.drop (soi + 2)) with
      | none =>
        rw [processBuf_noEoi hS hE] at hres
        have hres' : indexOfPair ffByte soiByte b = none := hres
        rw [hres'] at hS
        exact Option.noConfusion hS
      | some e =>
        have hsb := soi_bound hS
        rw [processBuf_emit hS hE] at hres ⊢
        exact ih (b.drop (soi + e + 4)) (by rw [List.length_drop]; omega) hres

theorem feedAll_residual_shape :
    ∀ (cs : List (List Nat)) (s : List Nat),
      (feedAll s cs).1 = s ∨ ∃ b, (feedAll s cs).1 = (processBuf b).1 := by
  intro cs
  induction cs with
  | nil => intro s; exact Or.inl rfl
  | cons c cs ih =>
    intro s
    rcases ih (processBuf (s ++ c)).1 with heq | ⟨b, hb⟩
    · exact Or.inr ⟨s ++ c, heq⟩
    · exact Or.inr ⟨b, hb⟩

/-- C4 amended: after any sequence of feeds, if the Byte Window contains no
start marker then the window — hence its marker-less prefix — is at most the
truncation threshold (1024·1024 bytes) long; when a start marker is retained
awaiting its end marker, the marker-less prefix before it is not bounded. -/
theorem window_bounded_when_no_soi (chunks : List (List Nat))
    (h : indexOfPair ffByte soiByte (feedAll [] chunks).1 = none) :
    ((feedAll [] chunks).1).length ≤ truncLimit := by
  rcases feedAll_residual_shape chunks [] with heq | ⟨b, hb⟩
  · rw [heq]
    simp
  · rw [hb] at h ⊢
    exact processBuf_residual_noSoi_bound b.length b le_rfl h

/-- Witness for `window_bounded_when_no_soi` at a concrete chunk list. -/
theorem window_bounded_when_no_soi_witness :
    indexOfPair ffByte soiByte (feedAll [] [[7, 8, 9]]).1 = none ∧
      ((feedAll [] [[7, 8, 9]]).1).length ≤ truncLimit := by
  have hS : indexOfPair ffByte soiByte ([7, 8, 9] : List Nat) = none := by decide
  have h1 : (feedAll [] [[7, 8, 9]]).1 = [7, 8, 9] := by
    show (processBuf ([] ++ [7, 8, 9])).1 = [7, 8, 9]
    rw [List.nil_append, processBuf_noSoi hS,
      truncate_small (by simp [truncLimit_eq])]
  have hnone : indexOfPair ffByte soiByte (feedAll [] [[7, 8, 9]]).1 = none := by
    rw [h1]
    exact hS
  exact ⟨hnone, window_bounded_when_no_soi [[7, 8, 9]] hnone⟩

/-- Witness for `demux_wellformed_stream` at a concrete two-frame stream. -/
theorem demux_wellformed_stream_witness :
    (∀ f ∈ [[255, 216, 1, 255, 217], [255, 216, 255, 217]], WellFormedJPEG f) ∧
      feed []
          ([[255, 216, 1, 255, 217], [255, 216, 255, 217]] :
            List (List Nat)).flatten
        = ([], [[255, 216, 1, 255, 217], [255, 216, 255, 217]]) := by
  have hwf :
      ∀ f ∈ [[255, 216, 1, 255, 217], [255, 216, 255, 217]], WellFormedJPEG f := by
    intro f hf
    rcases List.mem_cons.mp hf with rfl | hf2
    · exact ⟨[1], rfl, by decide⟩
    rcases List.mem_cons.mp hf2 with rfl | hf3
    · exact ⟨[], rfl, by decide⟩
    · exact absurd hf3 (List.not_mem_nil f)
  exact ⟨hwf, demux_wellformed_stream _ hwf⟩

end MJPEG

namespace Pipe

/-- A frame buffer handed to the orchestrator's frame callback. -/
abbrev Frame := List Nat

/-- Events visible to the orchestrator: a demuxed frame arriving at the
callback, or the completion (the `finally { busy = false }` block) of the one
in-flight inference. -/
inductive PipeEvent where
  | frame (f : Frame)
  | done

/-- The orchestrator state: the `busy` admission flag, the number of
inference calls currently in flight, and the frames so far forwarded to the
preview, accepted by the gate, and dropped by the gate. -/
structure PipeState where
  busy : Bool
  inFlight : Nat
  preview : List Frame
  accepted : List Frame
  dropped : List Frame

def initState : PipeState := ⟨false, 0, [], [], []⟩

/-- One orchestrator step.  On a frame: the callback first forwards to the
preview (lines 155–158), then runs the gate — `if (busy) return;`
`busy = true;` and dispatch (lines 161–162).  On completion: the `finally`
block resets the flag (lines 205–207). -/
def orchStep (s : PipeState) : PipeEvent → PipeState
  | .frame f =>
      if s.busy then
        { s with preview := s.preview ++ [f], dropped := s.dropped ++ [f] }
      else
        { s with preview := s.preview ++ [f], accepted := s.accepted ++ [f],
                 busy := true, inFlight := s.inFlight + 1 }
  | .done => { s with busy := false, inFlight := s.inFlight - 1 }

def runTrace (s : PipeState) : List PipeEvent → PipeState
  | [] => s
  | e :: tr => runTrace (orchStep s e) tr

/-- A trace is valid when `done` only occurs while the flag is up: the
`finally` of the single dispatched call is the only source of completions. -/
def validFrom (s : PipeState) : List PipeEvent → Bool
  | [] => true
  | e :: tr =>
      (match e with
       | .done => s.busy
       | .frame _ => true) && validFrom (orchStep s e) tr

/-- The frames carried by a trace, in arrival order. -/
def framesOf : List PipeEvent → List Frame
  | [] => []
  | .frame f :: tr => f :: framesOf tr
  | .done :: tr => framesOf tr

/-- Gate invariant: the flag is up exactly while an inference is in flight,
and at most one is. -/
def GateInv (s : PipeState) : Prop :=
  (s.busy = false → s.inFlight = 0) ∧ s.inFlight ≤ 1

theorem gateInv_step (s : PipeState) (e : PipeEvent)
    (hv : e = .done → s.busy = true) (h : GateInv s) : GateInv (orchStep s e) := by
  obtain ⟨h0, h1⟩ := h
  cases e with
  | frame f =>
    by_cases hb : s.busy
    · have hstep : orchStep s (.frame f) =
          { s with preview := s.preview ++ [f], dropped := s.dropped ++ [f] } := by
        simp [orchStep, hb]
      rw [hstep]
      exact ⟨h0, h1⟩
    · have hb' : s.busy = false := by simpa using hb
      have hstep : orchStep s (.frame f) =
          { s with preview := s.preview ++ [f], accepted := s.accepted ++ [f],
                   busy := true, inFlight := s.inFlight + 1 } := by
        simp [orchStep, hb']
      rw [hstep]
      have hz := h0 hb'
      exact ⟨fun hc => Bool.noConfusion hc, show s.inFlight + 1 ≤ 1 by omega⟩
  | done =>
    exact ⟨fun _ => show s.inFlight - 1 = 0 by omega,
      show s.inFlight - 1 ≤ 1 by omega⟩

theorem runTrace_gateInv :
    ∀ (tr : List PipeEvent) (s : PipeState),
      validFrom s tr = true → GateInv s → GateInv (runTrace s tr) := by
  intro tr
  induction tr with
  | nil => intro s _ h; exact h
  | cons e tr ih =>
    intro s hv h
    have hv' : validFrom (orchStep s e) tr = true := by
      simp only [validFrom, Bool.and_eq_true] at hv
      exact hv.2
    have hd : e = .done → s.busy = true := by
      intro he
      subst he
      simp only [validFrom, Bool.and_eq_true] at hv
      exact hv.1
    exact ih (orchStep s e) hv' (gateInv_step s e hd h)

/-- C1: reachable states have at most one inference in flight; while busy a
frame is dropped (only preview/dropped grow — silently, with no error and no
acceptance), and while idle the flag is raised before dispatch, leaving
exactly one call in flight. -/
theorem inference_gate_mutual_exclusion (tr : List PipeEvent)
    (hv : validFrom initState tr = true) :
    (runTrace initState tr).inFlight ≤ 1 ∧
      ((runTrace initState tr).busy = false →
        (runTrace initState tr).inFlight = 0) ∧
      (∀ f, (runTrace initState tr).busy = true →
        orchStep (runTrace initState tr) (.frame f) =
          { runTrace initState tr with
              preview := (runTrace initState tr).preview ++ [f],
              dropped := (runTrace initState tr).dropped ++ [f] }) ∧
      (∀ f, (runTrace initState tr).busy = false →
        (orchStep (runTrace initState tr) (.frame f)).busy = true ∧
          (orchStep (runTrace initState tr) (.frame f)).accepted =
            (runTrace initState tr).accepted ++ [f] ∧
          (orchStep (runTrace initState tr) (.frame f)).inFlight = 1) := by
  have hinv : GateInv (runTrace initState tr) :=
    runTrace_gateInv tr initState hv ⟨fun _ => rfl, by simp [initState]⟩
  refine ⟨hinv.2, hinv.1, ?_, ?_⟩
  · intro f hb
    simp only [orchStep, if_pos hb]
  · intro f hb
    have hstep : orchStep (runTrace initState tr) (.frame f) =
        { runTrace initState tr with
            preview := (runTrace initState tr).preview ++ [f],
            accepted := (runTrace initState tr).accepted ++ [f],
            busy := true,
            inFlight := (runTrace initState tr).inFlight + 1 } := by
      simp [orchStep, hb]
    rw [hstep]
    refine ⟨rfl, rfl, ?_⟩
    show (runTrace initState tr).inFlight + 1 = 1
    rw [hinv.1 hb]

/-- Witness for `inference_gate_mutual_exclusion` on a concrete trace. -/
theorem inference_gate_mutual_exclusion_witness :
    validFrom initState
        [PipeEvent.frame [1], PipeEvent.frame [2], PipeEvent.done,
          PipeEvent.frame [3]] = true ∧
      (runTrace initState
          [PipeEvent.frame [1], PipeEvent.frame [2], PipeEvent.done,
            PipeEvent.frame [3]]).inFlight ≤ 1 := by
  refine ⟨by decide, ?_⟩
  exact (inference_gate_mutual_exclusion _ (by decide)).1

theorem runTrace_fanout :
    ∀ (tr : List PipeEvent) (s : PipeState),
      (runTrace s tr).preview = s.preview ++ framesOf tr ∧
        ∃ a, (runTrace s tr).accepted = s.accepted ++ a ∧
          a.Sublist (framesOf tr) := by
  intro tr
  induction tr with
  | nil =>
    intro s
    refine ⟨?_, [], ?_, List.nil_sublist _⟩ <;> simp [runTrace, framesOf]
  | cons e tr ih =>
    intro s
    cases e with
    | frame f =>
      by_cases hb : s.busy
      · have hstep : orchStep s (.frame f) =
            { s with preview := s.preview ++ [f], dropped := s.dropped ++ [f] } := by
          simp [orchStep, hb]
        obtain ⟨hp, a, ha, hsub⟩ := ih (orchStep s (.frame f))
        refine ⟨?_, a, ?_, hsub.cons f⟩
        · show (runTrace (orchStep s (.frame f)) tr).preview = _
          rw [hp, hstep]
          simp [framesOf]
        · show (runTrace (orchStep s (.frame f)) tr).accepted = _
          rw [ha, hstep]
      · have hb' : s.busy = false := by simpa using hb
        have hstep : orchStep s (.frame f) =
            { s with preview := s.preview ++ [f], accepted := s.accepted ++ [f],
                     busy := true, inFlight := s.inFlight + 1 } := by
          simp [orchStep, hb']
        obtain ⟨hp, a, ha, hsub⟩ := ih (orchStep s (.frame f))
        refine ⟨?_, f :: a, ?_, hsub.cons₂ f⟩
        · show (runTrace (orchStep s (.frame f)) tr).preview = _
          rw [hp, hstep]
          simp [framesOf]
        · show (runTrace (orchStep s (.frame f)) tr).accepted = _
          rw [ha, hstep]
          simp
    | done =>
      obtain ⟨hp, a, ha, hsub⟩ := ih (orchStep s .done)
      refine ⟨?_, a, ?_, hsub⟩
      · show (runTrace (orchStep s .done) tr).preview = _
        rw [hp]
        rfl
      · show (runTrace (orchStep s .done) tr).accepted = _
        rw [ha]
        rfl

/-- C6: for any run whose frame arrivals are exactly the frames the Demuxer
emits for the given chunks, the Preview Forwarder receives every emitted
frame in emission order, and the Inference Gate accepts a subsequence of
them, preserving relative order. -/
theorem pipeline_ordering (chunks : List (List Nat)) (tr : List PipeEvent)
    (h : framesOf tr = (MJPEG.feedAll [] chunks).2) :
    (runTrace initState tr).preview = (MJPEG.feedAll [] chunks).2 ∧
      (runTrace initState tr).accepted.Sublist ((MJPEG.feedAll [] chunks).2) := by
  obtain ⟨hp, a, ha, hsub⟩ := runTrace_fanout tr initState
  constructor
  · rw [hp, ← h]
    rfl
  · rw [ha, ← h]
    exact hsub

/-- Witness for `pipeline_ordering` at a one-frame chunk list and trace. -/
theorem pipeline_ordering_witness :
    framesOf [PipeEvent.frame [255, 216, 255, 217]] =
        (MJPEG.feedAll [] [[255, 216, 255, 217]]).2 ∧
      ((runTrace initState [PipeEvent.frame [255, 216, 255, 217]]).preview =
          (MJPEG.feedAll [] [[255, 216, 255, 217]]).2 ∧
        (runTrace initState [PipeEvent.frame [255, 216, 255, 217]]).accepted.Sublist
          ((MJPEG.feedAll [] [[255, 216, 255, 217]]).2)) := by
  have hS : MJPEG.indexOfPair MJPEG.ffByte MJPEG.soiByte [255, 216, 255, 217]
      = some 0 := by decide
  have hE : MJPEG.indexOfPair MJPEG.ffByte MJPEG.eoiByte
      (List.drop (0 + 2) [255, 216, 255, 217]) = some 0 := by decide
  have hc : (MJPEG.feedAll [] [[255, 216, 255, 217]]).2
      = [[255, 216, 255, 217]] := by
    show (MJPEG.processBuf ([] ++ [255, 216, 255, 217])).2 ++ [] = _
    rw [List.nil_append, MJPEG.processBuf_emit hS hE]
    have hd : List.drop (0 + 0 + 4) [255, 216, 255, 217] = ([] : List Nat) := rfl
    rw [hd, MJPEG.processBuf_nil]
    rfl
  have hh : framesOf [PipeEvent.frame [255, 216, 255, 217]]
      = (MJPEG.feedAll [] [[255, 216, 255, 217]]).2 := by
    rw [hc]
    rfl
  exact ⟨hh, pipeline_ordering _ _ hh⟩

/-- Result of the preview-forward step (lines 155–158): the write attempts
made (each recording the sink's success, which the code discards) and the
console output produced along this path (there is none). -/
structure PreviewOut where
  writes : List Bool
  logs : List String

/-- Model of `if (!player.killed) { player.stdin.write(jpegBuf); }` — at most one
fire-and-forget write, whose outcome is ignored; no retry, no log. -/
def forwardPreview (killed : Bool) (sinkOk : Bool) : PreviewOut :=
  if killed then ⟨[], []⟩ else ⟨[sinkOk], []⟩

/-- The per-frame callback as seen by the pipeline: preview forward, then the
admission gate; the write outcome feeds nothing downstream. -/
def frameCallback (s : PipeState) (f : Frame) (killed sinkOk : Bool) :
    PipeState × PreviewOut :=
  (orchStep s (.frame f), forwardPreview killed sinkOk)

/-- C7 amended: a preview write is attempted at most once per frame (never
retried), its failure never reaches the pipeline state (so it cannot block
or disturb processing of subsequent frames) — but, contrary to the claim, the
failed write is not logged: the forward path emits no log at all. -/
theorem preview_sink_failure_isolated (s : PipeState) (f : Frame)
    (killed o1 o2 : Bool) :
    (frameCallback s f killed o1).1 = (frameCallback s f killed o2).1 ∧
      (frameCallback s f killed o1).2.writes.length ≤ 1 ∧
      (frameCallback s f killed o1).2.logs = [] := by
  refine ⟨rfl, ?_, ?_⟩
  · show (forwardPreview killed o1).writes.length ≤ 1
    unfold forwardPreview
    split <;> simp
  · show (forwardPreview killed o1).logs = []
    unfold forwardPreview
    split <;> rfl

/-- C7 counterexample: the claim says a failed preview write is logged, but
the forward path produces no log entry even when the sink write fails. -/
theorem preview_sink_failure_logged_cex :
    ¬ ∀ (s : PipeState) (f : Frame),
        (frameCallback s f false false).2.logs ≠ [] := by
  intro h
  exact h initState [0] rfl

end Pipe

namespace Classify

/-- The fixed Teachable Machine label set. -/
def LABELS : List String := ["TEACH", "STRONG", "STOP", "SORRY", "PLEASE"]

def IMAGE_SIZE : Nat := 224
def WIDTH : Nat := 224
def HEIGHT : Nat := 224

/-- Fallback naming `LABELS[i] ?? String(i)`: positional-index fallback label. -/
def labelFor (i : Nat) : String := LABELS.getD i (toString i)

/-- The sort comparator `(a, b) => b.p - a.p`: `a` may precede `b` exactly
when its probability is at least `b`’s. -/
def probDesc (a b : String × ℚ) : Bool := decide (b.2 ≤ a.2)

/-- The labelled distribution `Array.from(probs).map((p, i) => ...)`. -/
def labeled (probs : List ℚ) : List (String × ℚ) :=
  (probs.enum).map fun ip => (labelFor ip.1, ip.2)

/-- Model of `topK`: pair each probability with its label, sort descending by
probability (`arr.sort((a, b) => b.p - a.p)`, a stable sort), keep the first
`k` entries. -/
def topK (probs : List ℚ) (k : Nat) : List (String × ℚ) :=
  ((labeled probs).mergeSort probDesc).take k

/-- Throttle `if (now - lastLog > 500) { lastLog = now; console.log(...) }` folded over
a sequence of report opportunities: the subsequence of times at which a
report is actually emitted. -/
def reportTimes (lastLog : Nat) : List Nat → List Nat
  | [] => []
  | t :: ts =>
      if 500 < t - lastLog then t :: reportTimes t ts
      else reportTimes lastLog ts

theorem reportTimes_spacing :
    ∀ (ts : List Nat) (l : Nat), List.Sorted (· ≤ ·) ts → (∀ t ∈ ts, l ≤ t) →
      List.Chain' (fun a b => 500 < b - a) (reportTimes l ts) ∧
        ∀ r ∈ reportTimes l ts, 500 < r - l := by
  intro ts
  induction ts with
  | nil =>
    intro l _ _
    exact ⟨List.chain'_nil, by simp [reportTimes]⟩
  | cons t ts ih =>
    intro l hsort hge
    obtain ⟨hts, hsort'⟩ := List.sorted_cons.mp hsort
    have hlt : l ≤ t := hge t (List.mem_cons_self t ts)
    by_cases hem : 500 < t - l
    · rw [show reportTimes l (t :: ts) = t :: reportTimes t ts from by
        simp [reportTimes, hem]]
      obtain ⟨hch, hall⟩ := ih t hsort' hts
      refine ⟨List.chain'_cons'.mpr ⟨?_, hch⟩, ?_⟩
      · intro y hy
        exact hall y (List.mem_of_mem_head? hy)
      · intro r hr
        rcases List.mem_cons.mp hr with rfl | hr'
        · exact hem
        · have := hall r hr'
          omega
    · rw [show reportTimes l (t :: ts) = reportTimes l ts from by
        simp [reportTimes, hem]]
      exact ih l hsort' fun x hx => le_trans hlt (hts x hx)

theorem probDesc_trans (a b c : String × ℚ)
    (h1 : probDesc a b = true) (h2 : probDesc b c = true) :
    probDesc a c = true := by
  simp only [probDesc, decide_eq_true_eq] at h1 h2 ⊢
  exact le_trans h2 h1

theorem probDesc_total (a b : String × ℚ) :
    (probDesc a b || probDesc b a) = true := by
  simpa [probDesc] using le_total b.2 a.2

theorem topK_pairwise (probs : List ℚ) :
    List.Pairwise (fun a b : String × ℚ => b.2 ≤ a.2)
      ((labeled probs).mergeSort probDesc) := by
  have hs := List.sorted_mergeSort probDesc_trans probDesc_total (labeled probs)
  exact hs.imp fun h => by simpa [probDesc] using h

/-- C9: the report path ranks label–probability pairs descending, keeps at
most the top 2 (every kept entry outranks every discarded one), names an
out-of-range index by its positional fallback, and — over any nondecreasing
sequence of report opportunities — emits reports spaced more than 500 ms
apart, so at most one report per 500 ms interval. -/
theorem reporting_policy (probs : List ℚ) (ts : List Nat)
    (hsort : List.Sorted (· ≤ ·) ts) :
    List.Pairwise (fun a b : String × ℚ => b.2 ≤ a.2) (topK probs 2) ∧
      (topK probs 2).length ≤ 2 ∧
      (∀ x ∈ topK probs 2,
        ∀ y ∈ ((labeled probs).mergeSort probDesc).drop 2, y.2 ≤ x.2) ∧
      (∀ i, LABELS.length ≤ i → labelFor i = toString i) ∧
      List.Chain' (fun a b => 500 < b - a) (reportTimes 0 ts) := by
  have hpair := topK_pairwise probs
  refine ⟨List.Pairwise.sublist (List.take_sublist 2 _) hpair, ?_, ?_, ?_, ?_⟩
  · exact List.length_take_le 2 _
  · intro x hx y hy
    set L := (labeled probs).mergeSort probDesc with hL
    have hsplit : L.take 2 ++ L.drop 2 = L := List.take_append_drop 2 L
    have : List.Pairwise (fun a b : String × ℚ => b.2 ≤ a.2)
        (L.take 2 ++ L.drop 2) := by
      rw [hsplit]
      exact hpair
    exact (List.pairwise_append.mp this).2.2 x hx y hy
  · intro i hi
    exact List.getD_eq_default _ _ hi
  · exact (reportTimes_spacing ts 0 hsort fun t _ => Nat.zero_le t).1

/-- Witness for `reporting_policy` at concrete probabilities and times. -/
theorem reporting_policy_witness :
    List.Sorted (· ≤ ·) [600, 700, 1200] ∧
      (List.Pairwise (fun a b : String × ℚ => b.2 ≤ a.2)
          (topK [1/2, 1/3, 1/6] 2) ∧
        (topK [1/2, 1/3, 1/6] 2).length ≤ 2 ∧
        (∀ x ∈ topK [1/2, 1/3, 1/6] 2,
          ∀ y ∈ ((labeled [1/2, 1/3, 1/6]).mergeSort probDesc).drop 2,
            y.2 ≤ x.2) ∧
        (∀ i, LABELS.length ≤ i → labelFor i = toString i) ∧
        List.Chain' (fun a b => 500 < b - a) (reportTimes 0 [600, 700, 1200])) := by
  refine ⟨?_, reporting_policy [1/2, 1/3, 1/6] [600, 700, 1200] ?_⟩ <;> decide

/-- Result of `jpeg.decode`: `{ width, height, data }` with RGBA bytes. -/
structure Decoded where
  width : Nat
  height : Nat
  data : List Nat

/-- The fixed destination size `WIDTH * HEIGHT * 3`. -/
def rgbSize : Nat := WIDTH * HEIGHT * 3

/-- The RGBA→RGB repack loop
`for (let i = 0, j = 0; i < rgba.length; i += 4) { rgb[j++] = rgba[i]; ... }`:
one iteration per 4-byte stride of the source; out-of-range source reads give
0 (`undefined` stored into a `Uint8Array`), out-of-range destination writes
are dropped (`List.set` is a no-op out of bounds, as typed-array stores are). -/
def rgbFill (rgba rgb : List Nat) (j : Nat) : List Nat :=
  match rgba with
  | [] => rgb
  | r :: rest1 =>
      rgbFill (rest1.drop 3)
        (((rgb.set j r).set (j + 1) (rest1.getD 0 0)).set (j + 2) (rest1.getD 1 0))
        (j + 3)
termination_by rgba.length
decreasing_by
  simp only [List.length_drop, List.length_cons]
  omega

/-- Model of `const rgb = new Uint8Array(WIDTH * HEIGHT * 3)` followed by the repack
loop: the input tensor's backing data is always this fixed-size array. -/
def rgbaToRgb (rgba : List Nat) : List Nat :=
  rgbFill rgba (List.replicate rgbSize 0) 0

/-- Normalization `img.toFloat().div(255)`: 0–255 fixed-point to 0–1 rationals. -/
def normalize255 (rgb : List Nat) : List ℚ := rgb.map fun v => (v : ℚ) / 255

/-- Softmax `tf.softmax` over an abstract strictly positive exponential-like map `e`:
each raw score is sent to its `e`-weight divided by the total weight. -/
def softmaxWith (e : ℚ → ℚ) (xs : List ℚ) : List ℚ :=
  xs.map fun x => e x / (xs.map e).sum

/-- The Classifier Adapter success path: RGBA→RGB repack, 0–255 → 0–1
normalization, a single-image batch, `model.predict`, then softmax.
`predict` abstracts the opaque classifier and `e` the exponential inside
`tf.softmax`. -/
def classifyFrame (e : ℚ → ℚ) (predict : List (List ℚ) → List ℚ)
    (d : Decoded) : List ℚ :=
  softmaxWith e (predict [normalize255 (rgbaToRgb d.data)])

/-- Observable outcome of one inference-callback body. -/
structure InferOutcome where
  busy : Bool
  lastLog : Nat
  report : Option (List (String × ℚ))
  raised : Bool

/-- Lines 161–207: `if (busy) return; busy = true; try { decode; repack;
predict; softmax; throttled log } catch { /- ignore -/ } finally
{ busy = false }`.  `decodeRes` abstracts `jpeg.decode`: `.error ()` a thrown
decode error, `.ok none` a null-ish result (`if (!decoded || !decoded.data)
return`), `.ok (some d)` a successful decode. -/
def inferStep (busy : Bool) (lastLog now : Nat)
    (decodeRes : Except Unit (Option Decoded))
    (e : ℚ → ℚ) (predict : List (List ℚ) → List ℚ) : InferOutcome :=
  if busy then ⟨busy, lastLog, none, false⟩
  else
    match decodeRes with
    | .error _ => ⟨false, lastLog, none, false⟩
    | .ok none => ⟨false, lastLog, none, false⟩
    | .ok (some d) =>
        if 500 < now - lastLog then
          ⟨false, now, some (topK (classifyFrame e predict d) 2), false⟩
        else ⟨false, lastLog, none, false⟩

/-- C5: the flag is raised immediately before dispatch (the gate step on an
idle state sets `busy`), every exit path of the call body leaves it reset to
`false`, and on a decode failure (thrown or null result) the frame is
discarded with no report and no error propagated. -/
theorem admission_reset_on_all_exits (lastLog now : Nat)
    (decodeRes : Except Unit (Option Decoded)) (e : ℚ → ℚ)
    (predict : List (List ℚ) → List ℚ) :
    (∀ (s : Pipe.PipeState) (f : Pipe.Frame),
      s.busy = false → (Pipe.orchStep s (.frame f)).busy = true) ∧
      (inferStep false lastLog now decodeRes e predict).busy = false ∧
      (inferStep false lastLog now decodeRes e predict).raised = false ∧
      ((decodeRes = .error () ∨ decodeRes = .ok none) →
        (inferStep false lastLog now decodeRes e predict).report = none) := by
  refine ⟨?_, ?_, ?_, ?_⟩
  · intro s f hb
    have hb' : s.busy = false := hb
    have hstep : Pipe.orchStep s (.frame f) =
        { s with preview := s.preview ++ [f], accepted := s.accepted ++ [f],
                 busy := true, inFlight := s.inFlight + 1 } := by
      simp [Pipe.orchStep, hb']
    rw [hstep]
  · cases decodeRes with
    | error u => rfl
    | ok o =>
      cases o with
      | none => rfl
      | some d =>
        show (if 500 < now - lastLog then _ else _ : InferOutcome).busy = false
        split <;> rfl
  · cases decodeRes with
    | error u => rfl
    | ok o =>
      cases o with
      | none => rfl
      | some d =>
        show (if 500 < now - lastLog then _ else _ : InferOutcome).raised = false
        split <;> rfl
  · rintro (rfl | rfl) <;> rfl

/-- Witness for `admission_reset_on_all_exits` at a thrown decode error. -/
theorem admission_reset_on_all_exits_witness :
    ((Except.error () : Except Unit (Option Decoded)) = .error () ∨
        (Except.error () : Except Unit (Option Decoded)) = .ok none) ∧
      ((∀ (s : Pipe.PipeState) (f : Pipe.Frame),
          s.busy = false → (Pipe.orchStep s (.frame f)).busy = true) ∧
        (inferStep false 0 700 (.error ()) (fun _ => 1)
            (fun _ => [1, 1, 1, 1, 1])).busy = false ∧
        (inferStep false 0 700 (.error ()) (fun _ => 1)
            (fun _ => [1, 1, 1, 1, 1])).raised = false ∧
        (((Except.error () : Except Unit (Option Decoded)) = .error () ∨
            (Except.error () : Except Unit (Option Decoded)) = .ok none) →
          (inferStep false 0 700 (.error ()) (fun _ => 1)
              (fun _ => [1, 1, 1, 1, 1])).report = none)) :=
  ⟨Or.inl rfl,
    admission_reset_on_all_exits 0 700 (.error ()) (fun _ => 1)
      (fun _ => [1, 1, 1, 1, 1])⟩

theorem softmaxWith_sum (e : ℚ → ℚ) (xs : List ℚ)
    (hpos : ∀ x, 0 < e x) (hne : xs ≠ []) : (softmaxWith e xs).sum = 1 := by
  have hS : 0 < (xs.map e).sum := by
    refine List.sum_pos _ ?_ ?_
    · intro x hx
      obtain ⟨y, _, rfl⟩ := List.mem_map.mp hx
      exact hpos y
    · intro hmap
      exact hne (List.map_eq_nil_iff.mp hmap)
  unfold softmaxWith
  simp only [div_eq_mul_inv]
  rw [List.sum_map_mul_right]
  exact mul_inv_cancel₀ (ne_of_gt hS)

/-- C8: for every successfully decoded frame, the adapter is exactly
"softmax of the classifier's output on the single-image batch of the
normalized repacked raster", and the resulting label distribution sums to 1. -/
theorem classifier_adapter_distribution (e : ℚ → ℚ)
    (predict : List (List ℚ) → List ℚ) (d : Decoded)
    (hpos : ∀ x, 0 < e x)
    (hne : predict [normalize255 (rgbaToRgb d.data)] ≠ []) :
    classifyFrame e predict d =
        softmaxWith e (predict [normalize255 (rgbaToRgb d.data)]) ∧
      (classifyFrame e predict d).sum = 1 :=
  ⟨rfl, softmaxWith_sum e _ hpos hne⟩

/-- Witness for `classifier_adapter_distribution` at a constant classifier. -/
theorem classifier_adapter_distribution_witness :
    (∀ x : ℚ, 0 < (fun _ : ℚ => (1 : ℚ)) x) ∧
      ((fun _ : List (List ℚ) => [(1 : ℚ), 2, 3, 4, 5])
          [normalize255 (rgbaToRgb [])] ≠ []) ∧
      (classifyFrame (fun _ => 1) (fun _ => [1, 2, 3, 4, 5]) ⟨224, 224, []⟩ =
          softmaxWith (fun _ => 1)
            ((fun _ : List (List ℚ) => [(1 : ℚ), 2, 3, 4, 5])
              [normalize255 (rgbaToRgb ([] : List Nat))]) ∧
        (classifyFrame (fun _ => 1) (fun _ => [1, 2, 3, 4, 5])
            ⟨224, 224, []⟩).sum = 1) := by
  refine ⟨fun _ => one_pos, by simp, ?_⟩
  exact classifier_adapter_distribution (fun _ => 1) (fun _ => [1, 2, 3, 4, 5])
    ⟨224, 224, []⟩ (fun _ => one_pos) (by simp)

theorem rgbFill_nil (rgb : List Nat) (j : Nat) : rgbFill [] rgb j = rgb := by
  unfold rgbFill
  rfl

theorem rgbFill_cons (r : Nat) (rest1 rgb : List Nat) (j : Nat) :
    rgbFill (r :: rest1) rgb j =
      rgbFill (rest1.drop 3)
        (((rgb.set j r).set (j + 1) (rest1.getD 0 0)).set (j + 2)
          (rest1.getD 1 0))
        (j + 3) := by
  conv_lhs => unfold rgbFill

theorem getD_set_ne (l : List Nat) (p i v : Nat) (h : p ≠ i) :
    (l.set p v).getD i 0 = l.getD i 0 := by
  rw [List.getD_eq_getElem?_getD, List.getElem?_set, if_neg h,
    ← List.getD_eq_getElem?_getD]

theorem rgbFill_length :
    ∀ n rgba rgb j, rgba.length ≤ n →
      (rgbFill rgba rgb j).length = rgb.length := by
  intro n
  induction n with
  | zero =>
    intro rgba rgb j h
    obtain rfl : rgba = [] := List.length_eq_zero.mp (Nat.le_zero.mp h)
    rw [rgbFill_nil]
  | succ n ih =>
    intro rgba rgb j h
    cases rgba with
    | nil => rw [rgbFill_nil]
    | cons r rest1 =>
      simp only [List.length_cons] at h
      rw [rgbFill_cons,
        ih (rest1.drop 3) _ (j + 3) (by rw [List.length_drop]; omega)]
      simp [List.length_set]

/-- Destination cells at or beyond all the loop's writes keep their previous
value. -/
theorem rgbFill_getD_ge :
    ∀ n rgba rgb j, rgba.length ≤ n → ∀ m, rgba.length = 4 * m →
      ∀ i, j + 3 * m ≤ i → (rgbFill rgba rgb j).getD i 0 = rgb.getD i 0 := by
  intro n
  induction n with
  | zero =>
    intro rgba rgb j h m _ i _
    obtain rfl : rgba = [] := List.length_eq_zero.mp (Nat.le_zero.mp h)
    rw [rgbFill_nil]
  | succ n ih =>
    intro rgba rgb j h m h4 i hi
    cases rgba with
    | nil => rw [rgbFill_nil]
    | cons r rest1 =>
      simp only [List.length_cons] at h h4
      have hm : 1 ≤ m := by omega
      rw [rgbFill_cons]
      rw [ih (rest1.drop 3) _ (j + 3) (by rw [List.length_drop]; omega)
        (m - 1) (by rw [List.length_drop]; omega) i (by omega)]
      rw [getD_set_ne _ _ _ _ (by omega), getD_set_ne _ _ _ _ (by omega),
        getD_set_ne _ _ _ _ (by omega)]

theorem inferStep_ok_some (lastLog now : Nat) (d : Decoded) (e : ℚ → ℚ)
    (predict : List (List ℚ) → List ℚ) :
    inferStep false lastLog now (.ok (some d)) e predict =
      if 500 < now - lastLog then
        ⟨false, now, some (topK (classifyFrame e predict d) 2), false⟩
      else ⟨false, lastLog, none, false⟩ := rfl

/-- C10: the adapter never reads the decoded width/height; whatever they are,
the input tensor is built from the fixed `224*224*3`-cell destination (so
source pixel bytes beyond it are silently dropped), cells beyond the supplied
data stay zero, and the classifier is always invoked — the success path never
signals a failure. -/
theorem classifier_adapter_no_dimension_check
    (rgba : List Nat) (m : Nat) (h4 : rgba.length = 4 * m)
    (w h w' h' lastLog now : Nat) (e : ℚ → ℚ)
    (predict : List (List ℚ) → List ℚ) :
    (rgbaToRgb rgba).length = rgbSize ∧
      (∀ i, 3 * m ≤ i → (rgbaToRgb rgba).getD i 0 = 0) ∧
      inferStep false lastLog now (.ok (some ⟨w, h, rgba⟩)) e predict =
        inferStep false lastLog now (.ok (some ⟨w', h', rgba⟩)) e predict ∧
      (inferStep false lastLog now
          (.ok (some ⟨w, h, rgba⟩)) e predict).raised = false ∧
      (inferStep false lastLog now (.ok (some ⟨w, h, rgba⟩)) e predict).report =
        (if 500 < now - lastLog
          then some (topK (classifyFrame e predict ⟨w, h, rgba⟩) 2)
          else none) := by
  refine ⟨?_, ?_, rfl, ?_, ?_⟩
  · rw [rgbaToRgb, rgbFill_length rgba.length rgba _ 0 le_rfl,
      List.length_replicate]
  · intro i hi
    rw [rgbaToRgb,
      rgbFill_getD_ge rgba.length rgba _ 0 le_rfl m h4 i (by omega),
      List.getD_eq_getElem?_getD, List.getElem?_replicate]
    split <;> rfl
  · rw [inferStep_ok_some]
    split <;> rfl
  · rw [inferStep_ok_some]
    split <;> rfl

/-- Witness for `classifier_adapter_no_dimension_check` at a one-pixel RGBA
input. -/
theorem classifier_adapter_no_dimension_check_witness :
    ([10, 20, 30, 40] : List Nat).length = 4 * 1 ∧
      ((rgbaToRgb [10, 20, 30, 40]).length = rgbSize ∧
        (∀ i, 3 * 1 ≤ i → (rgbaToRgb [10, 20, 30, 40]).getD i 0 = 0) ∧
        inferStep false 0 700 (.ok (some ⟨64, 48, [10, 20, 30, 40]⟩))
            (fun _ => 1) (fun _ => [1, 1, 1, 1, 1]) =
          inferStep false 0 700 (.ok (some ⟨224, 224, [10, 20, 30, 40]⟩))
            (fun _ => 1) (fun _ => [1, 1, 1, 1, 1]) ∧
        (inferStep false 0 700 (.ok (some ⟨64, 48, [10, 20, 30, 40]⟩))
            (fun _ => 1) (fun _ => [1, 1, 1, 1, 1])).raised = false ∧
        (inferStep false 0 700 (.ok (some ⟨64, 48, [10, 20, 30, 40]⟩))
            (fun _ => 1) (fun _ => [1, 1, 1, 1, 1])).report =
          (if 500 < 700 - 0
            then some (topK (classifyFrame (fun _ => 1)
              (fun _ => [1, 1, 1, 1, 1]) ⟨64, 48, [10, 20, 30, 40]⟩) 2)
            else none)) :=
  ⟨by decide,
    classifier_adapter_no_dimension_check [10, 20, 30, 40] 1 (by decide)
      64 48 224 224 0 700 (fun _ => 1) (fun _ => [1, 1, 1, 1, 1])⟩

end Classify
